import Mathlib

/-!
Verification of the planar-geometry measurement primitives of the `geo`
repository: the distance / boundary-membership engine of
`geo-types/src/private_utils.rs` and the signed-area engine of
`geo/src/algorithm/area.rs`.

The generic numeric parameter `T: Float` of the distance engine is modelled
by the real numbers; `hypot(a, b)` is `Real.sqrt (a^2 + b^2)`.  The
tolerance used by `point_contains_point` (the approx crate's
`relative_eq!(distance, 0.0)` after an `f32` conversion) reduces to
comparing the distance against the `f32` machine epsilon `2^(-23)`; the
rounding of the distance itself to `f32` is elided.  `T::max_value()` is
modelled by the largest finite `f64`, `2^1024 - 2^971`, the canonical
instantiation.  The area engine is generic over `T: CoordinateType`, an
ordered numeric type; it is modelled by the rational numbers, which makes
every area computation executable.
-/

open Classical

namespace Geo

/-- A coordinate: a pair (x, y) of the numeric type, modelled over ℝ. -/
@[ext]
structure Coord where
  x : ℝ
  y : ℝ

/-- A line: an ordered pair of coordinates, `Line::new(start, end)`. -/
structure Line where
  start : Coord
  stop : Coord

/-- `Line::dx`: `self.end.x - self.start.x`. -/
def Line.dx (l : Line) : ℝ := l.stop.x - l.start.x

/-- `Line::dy`: `self.end.y - self.start.y`. -/
def Line.dy (l : Line) : ℝ := l.stop.y - l.start.y

/-- `line_euclidean_length`: `line.dx().hypot(line.dy())`. -/
noncomputable def line_euclidean_length (line : Line) : ℝ :=
  Real.sqrt (line.dx ^ 2 + line.dy ^ 2)

/-- `line_segment_distance(point, start, end)` from
`geo-types/src/private_utils.rs`. -/
noncomputable def line_segment_distance (point start stop : Coord) : ℝ :=
  if start = stop then line_euclidean_length ⟨point, start⟩
  else
    if ((point.x - start.x) * (stop.x - start.x) + (point.y - start.y) * (stop.y - start.y)) /
        ((stop.x - start.x) ^ 2 + (stop.y - start.y) ^ 2) ≤ 0 then
      line_euclidean_length ⟨point, start⟩
    else if 1 ≤ ((point.x - start.x) * (stop.x - start.x) + (point.y - start.y) * (stop.y - start.y)) /
        ((stop.x - start.x) ^ 2 + (stop.y - start.y) ^ 2) then
      line_euclidean_length ⟨point, stop⟩
    else
      |((start.y - point.y) * (stop.x - start.x) - (start.x - point.x) * (stop.y - start.y)) /
          ((stop.x - start.x) * (stop.x - start.x) + (stop.y - start.y) * (stop.y - start.y))| *
        Real.sqrt ((stop.x - start.x) ^ 2 + (stop.y - start.y) ^ 2)

/-- Straight-line (Euclidean) distance between two points, as the spec
phrases it. -/
noncomputable def euclidean_distance (p q : Coord) : ℝ :=
  Real.sqrt ((q.x - p.x) ^ 2 + (q.y - p.y) ^ 2)

/-- Coordinate-wise difference of two coordinates. -/
def csub (a b : Coord) : Coord := ⟨a.x - b.x, a.y - b.y⟩

/-- 2-D cross product of two coordinate vectors. -/
def cross (a b : Coord) : ℝ := a.x * b.y - a.y * b.x

/-- The segment-distance contract exactly as the spec words it: degenerate
segment gives the distance to `start`; otherwise the projection parameter
`r` selects the distance to `start` (r ≤ 0), to `end` (r ≥ 1), or the
perpendicular distance `|cross(start − point, end − start)| / |end − start|`. -/
noncomputable def segment_distance_spec (point start stop : Coord) : ℝ :=
  if start = stop then euclidean_distance point start
  else
    if ((point.x - start.x) * (stop.x - start.x) + (point.y - start.y) * (stop.y - start.y)) /
        ((stop.x - start.x) ^ 2 + (stop.y - start.y) ^ 2) ≤ 0 then
      euclidean_distance point start
    else if 1 ≤ ((point.x - start.x) * (stop.x - start.x) + (point.y - start.y) * (stop.y - start.y)) /
        ((stop.x - start.x) ^ 2 + (stop.y - start.y) ^ 2) then
      euclidean_distance point stop
    else
      |cross (csub start point) (csub stop start)| / euclidean_distance start stop

lemma line_euclidean_length_eq (p q : Coord) :
    line_euclidean_length ⟨p, q⟩ = euclidean_distance p q := by
  simp [line_euclidean_length, euclidean_distance, Line.dx, Line.dy]

lemma sq_sum_pos_of_ne {s e : Coord} (hse : s ≠ e) :
    0 < (e.x - s.x) ^ 2 + (e.y - s.y) ^ 2 := by
  have h : s.x ≠ e.x ∨ s.y ≠ e.y := by
    by_contra h
    push_neg at h
    exact hse (Coord.ext h.1 h.2)
  rcases h with h | h
  · have hx : 0 < (e.x - s.x) ^ 2 :=
      pow_two_pos_of_ne_zero (sub_ne_zero.mpr (Ne.symm h))
    nlinarith [sq_nonneg (e.y - s.y)]
  · have hy : 0 < (e.y - s.y) ^ 2 :=
      pow_two_pos_of_ne_zero (sub_ne_zero.mpr (Ne.symm h))
    nlinarith [sq_nonneg (e.x - s.x)]

/-- Claim C1: `line_segment_distance` meets its contract: for a degenerate
segment it is the straight-line distance to `start`, and otherwise the
projection parameter `r` selects the distance to `start` (r ≤ 0), the
distance to `end` (r ≥ 1), or the perpendicular distance
`|cross(start − point, end − start)| / |end − start|` (0 < r < 1). -/
theorem line_segment_distance_meets_spec (point start stop : Coord) :
    line_segment_distance point start stop = segment_distance_spec point start stop := by
  unfold line_segment_distance segment_distance_spec
  by_cases hse : start = stop
  · simp [hse, line_euclidean_length_eq]
  · rw [if_neg hse, if_neg hse]
    by_cases hr0 : ((point.x - start.x) * (stop.x - start.x) +
        (point.y - start.y) * (stop.y - start.y)) /
        ((stop.x - start.x) ^ 2 + (stop.y - start.y) ^ 2) ≤ 0
    · rw [if_pos hr0, if_pos hr0, line_euclidean_length_eq]
    · rw [if_neg hr0, if_neg hr0]
      by_cases hr1 : 1 ≤ ((point.x - start.x) * (stop.x - start.x) +
          (point.y - start.y) * (stop.y - start.y)) /
          ((stop.x - start.x) ^ 2 + (stop.y - start.y) ^ 2)
      · rw [if_pos hr1, if_pos hr1, line_euclidean_length_eq]
      · rw [if_neg hr1, if_neg hr1]
        have hq : 0 < (stop.x - start.x) ^ 2 + (stop.y - start.y) ^ 2 :=
          sq_sum_pos_of_ne hse
        have hqs : 0 < Real.sqrt ((stop.x - start.x) ^ 2 + (stop.y - start.y) ^ 2) :=
          Real.sqrt_pos.mpr hq
        have hnum : (start.y - point.y) * (stop.x - start.x) -
            (start.x - point.x) * (stop.y - start.y) =
            -(cross (csub start point) (csub stop start)) := by
          simp only [cross, csub]
          ring
        have hden : (stop.x - start.x) * (stop.x - start.x) +
            (stop.y - start.y) * (stop.y - start.y) =
            (stop.x - start.x) ^ 2 + (stop.y - start.y) ^ 2 := by ring
        rw [hnum, hden, abs_div, abs_neg, abs_of_pos hq]
        have hkey : |cross (csub start point) (csub stop start)| /
              ((stop.x - start.x) ^ 2 + (stop.y - start.y) ^ 2) *
              Real.sqrt ((stop.x - start.x) ^ 2 + (stop.y - start.y) ^ 2) =
            |cross (csub start point) (csub stop start)| /
              Real.sqrt ((stop.x - start.x) ^ 2 + (stop.y - start.y) ^ 2) := by
          rw [div_mul_eq_mul_div, div_eq_div_iff (ne_of_gt hq) (ne_of_gt hqs),
            mul_assoc, Real.mul_self_sqrt hq.le]
        rw [hkey]
        rfl

/-- The `f32` machine epsilon, `2^(-23)`: the default tolerance of the
approx crate's `relative_eq!` used by `point_contains_point`. -/
noncomputable def f32_epsilon : ℝ := 1 / 2 ^ 23

/-- `point_contains_point(p1, p2)`: the distance between the points,
converted to `f32`, is approximately zero under `relative_eq!`, which for a
comparison against `0.0` reduces to `distance ≤ f32::EPSILON`. -/
noncomputable def point_contains_point (p1 p2 : Coord) : Prop :=
  line_euclidean_length ⟨p1, p2⟩ ≤ f32_epsilon

/-- The per-segment test of the loop in `line_string_contains_point`:
horizontal segment through the point's y with x strictly between the
segment's x-extremes, or the symmetric vertical case. -/
def segment_boundary_cond (line : Line) (p : Coord) : Prop :=
  (line.start.y = line.stop.y ∧ line.start.y = p.y ∧
    min line.start.x line.stop.x < p.x ∧ p.x < max line.start.x line.stop.x) ∨
  (line.start.x = line.stop.x ∧ line.start.x = p.x ∧
    min line.start.y line.stop.y < p.y ∧ p.y < max line.start.y line.stop.y)

/-- `LineString::lines()`: the consecutive segments of a coordinate list. -/
def lines : List Coord → List Line
  | a :: b :: rest => ⟨a, b⟩ :: lines (b :: rest)
  | _ => []

/-- `line_string_contains_point(line_string, point)` from
`geo-types/src/private_utils.rs`: empty gives false; a single coordinate
delegates to `point_contains_point`; otherwise the point is a vertex or
some consecutive segment passes the axis-aligned boundary test. -/
noncomputable def line_string_contains_point (line_string : List Coord) (point : Coord) : Prop :=
  match line_string with
  | [] => False
  | [c] => point_contains_point c point
  | l => point ∈ l ∨ ∃ li ∈ lines l, segment_boundary_cond li point

/-- `T::max_value()` for the canonical `f64` instantiation of the numeric
parameter: the largest finite double, `2^1024 - 2^971`. -/
noncomputable def float_max_value : ℝ := 2 ^ 1024 - 2 ^ 971

/-- The segment distances computed by the `map` inside
`point_line_string_euclidean_distance`. -/
noncomputable def segment_distances (p : Coord) (l : List Coord) : List ℝ :=
  (lines l).map (fun li => line_segment_distance p li.start li.stop)

/-- `point_line_string_euclidean_distance(p, l)` from
`geo-types/src/private_utils.rs`. -/
noncomputable def point_line_string_euclidean_distance (p : Coord) (l : List Coord) : ℝ :=
  if line_string_contains_point l p ∨ l = [] then 0
  else (segment_distances p l).foldl min float_max_value

/-- Number of `line_segment_distance` invocations performed by
`point_line_string_euclidean_distance`: zero on the short-circuit path,
one per consecutive segment otherwise. -/
noncomputable def segment_distance_call_count (p : Coord) (l : List Coord) : ℕ :=
  if line_string_contains_point l p ∨ l = [] then 0
  else (lines l).length

lemma foldl_min_le_init : ∀ (xs : List ℝ) (a : ℝ), xs.foldl min a ≤ a := by
  intro xs
  induction xs with
  | nil => intro a; simp
  | cons x xs ih =>
    intro a
    calc (x :: xs).foldl min a = xs.foldl min (min a x) := rfl
    _ ≤ min a x := ih _
    _ ≤ a := min_le_left _ _

lemma foldl_min_le_mem : ∀ (xs : List ℝ) (a y : ℝ), y ∈ xs → xs.foldl min a ≤ y := by
  intro xs
  induction xs with
  | nil => intro a y hy; simp at hy
  | cons x xs ih =>
    intro a y hy
    rcases List.mem_cons.mp hy with h | h
    · subst h
      calc (y :: xs).foldl min a = xs.foldl min (min a y) := rfl
      _ ≤ min a y := foldl_min_le_init _ _
      _ ≤ y := min_le_right _ _
    · exact ih (min a x) y h

lemma foldl_min_eq_or_mem : ∀ (xs : List ℝ) (a : ℝ), xs.foldl min a = a ∨ xs.foldl min a ∈ xs := by
  intro xs
  induction xs with
  | nil => intro a; left; rfl
  | cons x xs ih =>
    intro a
    rcases ih (min a x) with h | h
    · have hfold : (x :: xs).foldl min a = min a x := h
      rcases le_total a x with hax | hxa
      · left
        rw [hfold, min_eq_left hax]
      · right
        rw [hfold, min_eq_right hxa]
        exact List.mem_cons_self x xs
    · right
      exact List.mem_cons_of_mem x h

/-- Claim C2: `point_line_string_euclidean_distance` returns 0 when the
linestring is empty or the containment fast path fires; otherwise (when
segments exist and their distances do not exceed the fold's
`T::max_value()` seed) it returns the minimum of `line_segment_distance`
over every consecutive segment, characterized as an attained lower bound. -/
theorem point_line_string_distance_characterization (p : Coord) (l : List Coord) :
    ((l = [] ∨ line_string_contains_point l p) →
      point_line_string_euclidean_distance p l = 0) ∧
    (¬ line_string_contains_point l p →
      segment_distances p l ≠ [] →
      (∀ d ∈ segment_distances p l, d ≤ float_max_value) →
      point_line_string_euclidean_distance p l ∈ segment_distances p l ∧
        ∀ d ∈ segment_distances p l, point_line_string_euclidean_distance p l ≤ d) := by
  constructor
  · intro h
    unfold point_line_string_euclidean_distance
    rw [if_pos h.symm]
  · intro hnc hne hbound
    have hl : l ≠ [] := by
      intro h
      apply hne
      rw [h]
      rfl
    unfold point_line_string_euclidean_distance
    rw [if_neg (by tauto)]
    have hub : ∀ d ∈ segment_distances p l,
        (segment_distances p l).foldl min float_max_value ≤ d :=
      fun d hd => foldl_min_le_mem _ _ d hd
    refine ⟨?_, hub⟩
    rcases foldl_min_eq_or_mem (segment_distances p l) float_max_value with h | h
    · obtain ⟨d, hd⟩ := List.exists_mem_of_ne_nil _ hne
      have hda : (segment_distances p l).foldl min float_max_value = d :=
        le_antisymm (hub d hd) (by rw [h]; exact hbound d hd)
      rw [hda]
      exact hd
    · exact h

/-- Claim C2 witness: for the point (0,4) and the linestring
[(0,0),(3,0)], the fast path does not fire and the result is the attained
minimum of the segment distances. -/
theorem point_line_string_distance_characterization_witness :
    ¬ line_string_contains_point [⟨0, 0⟩, ⟨3, 0⟩] ⟨0, 4⟩ ∧
    (point_line_string_euclidean_distance ⟨0, 4⟩ [⟨0, 0⟩, ⟨3, 0⟩] ∈
        segment_distances ⟨0, 4⟩ [⟨0, 0⟩, ⟨3, 0⟩] ∧
      ∀ d ∈ segment_distances ⟨0, 4⟩ [⟨0, 0⟩, ⟨3, 0⟩],
        point_line_string_euclidean_distance ⟨0, 4⟩ [⟨0, 0⟩, ⟨3, 0⟩] ≤ d) := by
  have hnc : ¬ line_string_contains_point [⟨0, 0⟩, ⟨3, 0⟩] ⟨0, 4⟩ := by
    unfold line_string_contains_point
    simp only [segment_boundary_cond, lines, Coord.mk.injEq, List.mem_cons]
    push_neg
    norm_num
  have hsd : segment_distances ⟨0, 4⟩ [⟨0, 0⟩, ⟨3, 0⟩] =
      [line_segment_distance ⟨0, 4⟩ ⟨0, 0⟩ ⟨3, 0⟩] := rfl
  have hval : line_segment_distance ⟨0, 4⟩ ⟨0, 0⟩ ⟨3, 0⟩ = 4 := by
    unfold line_segment_distance
    rw [if_neg (by simp), if_pos (by norm_num)]
    unfold line_euclidean_length Line.dx Line.dy
    simp only
    rw [show ((0 : ℝ) - 0) ^ 2 + ((0 : ℝ) - 4) ^ 2 = 4 ^ 2 by norm_num]
    exact Real.sqrt_sq (by norm_num)
  have hbound : ∀ d ∈ segment_distances ⟨0, 4⟩ [⟨0, 0⟩, ⟨3, 0⟩], d ≤ float_max_value := by
    rw [hsd, hval]
    intro d hd
    rw [List.mem_singleton] at hd
    rw [hd]
    unfold float_max_value
    norm_num
  exact ⟨hnc, (point_line_string_distance_characterization ⟨0, 4⟩ [⟨0, 0⟩, ⟨3, 0⟩]).2 hnc
    (by rw [hsd]; simp) hbound⟩

/-- Claim C3: for a single-coordinate linestring the segment loop is never
reached: no `line_segment_distance` call occurs and the result is fully
determined by the short-circuit checks (0 on containment, otherwise the
untouched `T::max_value()` fold seed). -/
theorem single_coordinate_never_reaches_segment_loop (p c : Coord) :
    segment_distance_call_count p [c] = 0 ∧
    point_line_string_euclidean_distance p [c] =
      (if point_contains_point c p then 0 else float_max_value) := by
  have hcont : line_string_contains_point [c] p = point_contains_point c p := rfl
  constructor
  · unfold segment_distance_call_count
    by_cases h : point_contains_point c p
    · rw [if_pos (Or.inl (hcont ▸ h))]
    · rw [if_neg (by rw [hcont]; simp [h])]
      rfl
  · unfold point_line_string_euclidean_distance
    by_cases h : point_contains_point c p
    · rw [if_pos (Or.inl (hcont ▸ h)), if_pos h]
    · rw [if_neg (by rw [hcont]; simp [h]), if_neg h]
      rfl

/-- Claim C4: for a single-coordinate linestring whose coordinate is not
approximately equal to the query point, the distance is the untouched
`T::max_value()` fold seed, not the Euclidean distance to the coordinate. -/
theorem single_coordinate_distance_is_max_value (p c : Coord)
    (h : ¬ point_contains_point c p) :
    point_line_string_euclidean_distance p [c] = float_max_value := by
  have hcont : line_string_contains_point [c] p = point_contains_point c p := rfl
  unfold point_line_string_euclidean_distance
  rw [if_neg (by rw [hcont]; simp [h])]
  rfl

/-- Claim C4 witness: the point (5,0) is 5 away from the single coordinate
(0,0), far beyond the tolerance, and the reported distance is the fold
seed. -/
theorem single_coordinate_distance_is_max_value_witness :
    ¬ point_contains_point ⟨0, 0⟩ ⟨5, 0⟩ ∧
    point_line_string_euclidean_distance ⟨5, 0⟩ [⟨0, 0⟩] = float_max_value := by
  have h : ¬ point_contains_point (⟨0, 0⟩ : Coord) ⟨5, 0⟩ := by
    unfold point_contains_point line_euclidean_length Line.dx Line.dy f32_epsilon
    simp only
    rw [show ((5 : ℝ) - 0) ^ 2 + ((0 : ℝ) - 0) ^ 2 = 5 ^ 2 by norm_num,
      Real.sqrt_sq (by norm_num : (0 : ℝ) ≤ 5)]
    norm_num
  exact ⟨h, single_coordinate_distance_is_max_value ⟨5, 0⟩ ⟨0, 0⟩ h⟩

/-- The containment decision procedure exactly as the spec words it:
(1) empty gives false; (2) a single coordinate delegates to the
tolerance-based equality; (3) exact vertex match gives true; (4) some
consecutive segment, indexed by position, is horizontal through the
point's y with x strictly between its x-extremes or vertical through the
point's x with y strictly between its y-extremes; (5) otherwise false. -/
noncomputable def line_string_contains_point_spec (l : List Coord) (p : Coord) : Prop :=
  if l.length = 0 then False
  else if h1 : l.length = 1 then point_contains_point (l.get ⟨0, by omega⟩) p
  else
    p ∈ l ∨
      ∃ i, ∃ h : i + 1 < l.length,
        ((l.get ⟨i, by omega⟩).y = (l.get ⟨i + 1, h⟩).y ∧
          p.y = (l.get ⟨i, by omega⟩).y ∧
          min (l.get ⟨i, by omega⟩).x (l.get ⟨i + 1, h⟩).x < p.x ∧
          p.x < max (l.get ⟨i, by omega⟩).x (l.get ⟨i + 1, h⟩).x) ∨
        ((l.get ⟨i, by omega⟩).x = (l.get ⟨i + 1, h⟩).x ∧
          p.x = (l.get ⟨i, by omega⟩).x ∧
          min (l.get ⟨i, by omega⟩).y (l.get ⟨i + 1, h⟩).y < p.y ∧
          p.y < max (l.get ⟨i, by omega⟩).y (l.get ⟨i + 1, h⟩).y)

lemma mem_lines_iff (l : List Coord) (li : Line) :
    li ∈ lines l ↔
      ∃ i, ∃ h : i + 1 < l.length, li = ⟨l.get ⟨i, by omega⟩, l.get ⟨i + 1, h⟩⟩ := by
  induction l with
  | nil =>
    constructor
    · intro h
      simp [lines] at h
    · rintro ⟨i, h, _⟩
      simp at h
  | cons a rest ih =>
    cases rest with
    | nil =>
      constructor
      · intro h
        simp [lines] at h
      · rintro ⟨i, h, _⟩
        simp at h
    | cons b rest2 =>
      constructor
      · intro hmem
        rcases List.mem_cons.mp hmem with h | h
        · exact ⟨0, by simp, h⟩
        · obtain ⟨j, hj, hval⟩ := ih.mp h
          refine ⟨j + 1, by simpa using Nat.succ_lt_succ hj, ?_⟩
          simpa using hval
      · rintro ⟨i, h, hval⟩
        cases i with
        | zero =>
          rw [hval]
          exact List.mem_cons_self _ _
        | succ j =>
          apply List.mem_cons_of_mem
          apply ih.mpr
          refine ⟨j, by simpa using Nat.lt_of_succ_lt_succ h, ?_⟩
          simpa using hval

/-- Claim C5: `line_string_contains_point` is extensionally the spec's
five-step decision procedure: empty, single-coordinate tolerance test,
exact vertex match, axis-aligned strict-betweenness over consecutive
segments, otherwise false. -/
theorem line_string_contains_point_decision_order (l : List Coord) (p : Coord) :
    line_string_contains_point l p ↔ line_string_contains_point_spec l p := by
  rcases l with _ | ⟨a, _ | ⟨b, rest⟩⟩
  · simp [line_string_contains_point, line_string_contains_point_spec]
  · simp [line_string_contains_point, line_string_contains_point_spec]
  · have hlen0 : (a :: b :: rest).length ≠ 0 := by simp
    have hlen1 : (a :: b :: rest).length ≠ 1 := by simp
    rw [line_string_contains_point_spec, if_neg hlen0, dif_neg hlen1]
    show (p ∈ a :: b :: rest ∨ ∃ li ∈ lines (a :: b :: rest), segment_boundary_cond li p) ↔ _
    apply or_congr Iff.rfl
    constructor
    · rintro ⟨li, hmem, hcond⟩
      obtain ⟨i, hi, hval⟩ := (mem_lines_iff _ li).mp hmem
      refine ⟨i, hi, ?_⟩
      rw [hval] at hcond
      rcases hcond with ⟨h1, h2, h3, h4⟩ | ⟨h1, h2, h3, h4⟩
      · exact Or.inl ⟨h1, h2.symm, h3, h4⟩
      · exact Or.inr ⟨h1, h2.symm, h3, h4⟩
    · rintro ⟨i, hi, hcond⟩
      refine ⟨⟨(a :: b :: rest).get ⟨i, by omega⟩, (a :: b :: rest).get ⟨i + 1, hi⟩⟩,
        (mem_lines_iff _ _).mpr ⟨i, hi, rfl⟩, ?_⟩
      rcases hcond with ⟨h1, h2, h3, h4⟩ | ⟨h1, h2, h3, h4⟩
      · exact Or.inl ⟨h1, h2.symm, h3, h4⟩
      · exact Or.inr ⟨h1, h2.symm, h3, h4⟩

/-- The point lies strictly inside the segment: it is `start + t·(end −
start)` for some `0 < t < 1`. -/
def on_open_segment (p : Coord) (li : Line) : Prop :=
  ∃ t : ℝ, 0 < t ∧ t < 1 ∧
    p.x = li.start.x + t * (li.stop.x - li.start.x) ∧
    p.y = li.start.y + t * (li.stop.y - li.start.y)

lemma boundary_cond_on_axis_aligned {li : Line} {p : Coord}
    (h : segment_boundary_cond li p) :
    (li.start.x = li.stop.x ∨ li.start.y = li.stop.y) ∧ on_open_segment p li := by
  rcases h with ⟨hy, hpy, hx1, hx2⟩ | ⟨hx, hpx, hy1, hy2⟩
  · refine ⟨Or.inr hy, ?_⟩
    have hne : li.stop.x - li.start.x ≠ 0 := by
      intro h0
      have hxx : li.stop.x = li.start.x := by linarith
      rw [hxx, min_self] at hx1
      rw [hxx, max_self] at hx2
      linarith
    have hne' : li.start.x ≠ li.stop.x := fun h0 => hne (by rw [h0]; ring)
    refine ⟨(p.x - li.start.x) / (li.stop.x - li.start.x), ?_, ?_, ?_, ?_⟩
    · rcases lt_or_gt_of_ne hne' with hlt | hgt
      · rw [min_eq_left hlt.le] at hx1
        exact div_pos (by linarith) (by linarith)
      · rw [min_eq_right hgt.le] at hx1
        rw [max_eq_left hgt.le] at hx2
        exact div_pos_iff.mpr (Or.inr ⟨by linarith, by linarith⟩)
    · rcases lt_or_gt_of_ne hne' with hlt | hgt
      · rw [max_eq_right hlt.le] at hx2
        rw [div_lt_one (by linarith)]
        linarith
      · rw [min_eq_right hgt.le] at hx1
        rw [div_lt_one_of_neg (by linarith)]
        linarith
    · rw [div_mul_cancel₀ _ hne]
      ring
    · rw [show li.stop.y - li.start.y = 0 from by rw [← hy]; ring]
      rw [mul_zero, add_zero]
      exact hpy.symm
  · refine ⟨Or.inl hx, ?_⟩
    have hne : li.stop.y - li.start.y ≠ 0 := by
      intro h0
      have hyy : li.stop.y = li.start.y := by linarith
      rw [hyy, min_self] at hy1
      rw [hyy, max_self] at hy2
      linarith
    have hne' : li.start.y ≠ li.stop.y := fun h0 => hne (by rw [h0]; ring)
    refine ⟨(p.y - li.start.y) / (li.stop.y - li.start.y), ?_, ?_, ?_, ?_⟩
    · rcases lt_or_gt_of_ne hne' with hlt | hgt
      · rw [min_eq_left hlt.le] at hy1
        exact div_pos (by linarith) (by linarith)
      · rw [min_eq_right hgt.le] at hy1
        rw [max_eq_left hgt.le] at hy2
        exact div_pos_iff.mpr (Or.inr ⟨by linarith, by linarith⟩)
    · rcases lt_or_gt_of_ne hne' with hlt | hgt
      · rw [max_eq_right hlt.le] at hy2
        rw [div_lt_one (by linarith)]
        linarith
      · rw [min_eq_right hgt.le] at hy1
        rw [div_lt_one_of_neg (by linarith)]
        linarith
    · rw [show li.stop.x - li.start.x = 0 from by rw [← hx]; ring]
      rw [mul_zero, add_zero]
      exact hpx.symm
    · rw [div_mul_cancel₀ _ hne]
      ring

/-- Claim C6 (amended): a point strictly interior to a diagonal segment of
a linestring with at least two coordinates, equal to no vertex, and lying
on the open interior of no axis-aligned segment of the linestring, is not
contained — even though some segment of the linestring is at distance 0
from it. -/
theorem diagonal_interior_point_not_contained (l : List Coord) (p : Coord)
    (hlen : 2 ≤ l.length)
    (hdiag : ∃ li ∈ lines l,
      (li.start.x ≠ li.stop.x ∧ li.start.y ≠ li.stop.y) ∧ on_open_segment p li)
    (hvert : p ∉ l)
    (haxis : ∀ li ∈ lines l,
      (li.start.x = li.stop.x ∨ li.start.y = li.stop.y) → ¬ on_open_segment p li) :
    ¬ line_string_contains_point l p ∧
      ∃ li ∈ lines l, line_segment_distance p li.start li.stop = 0 := by
  constructor
  · rcases l with _ | ⟨a, _ | ⟨b, rest⟩⟩
    · simp at hlen
    · simp at hlen
    · intro hcont
      have hcont2 : p ∈ (a :: b :: rest) ∨
          ∃ li ∈ lines (a :: b :: rest), segment_boundary_cond li p := hcont
      rcases hcont2 with hmem | ⟨li, hlim, hcond⟩
      · exact hvert hmem
      · obtain ⟨hax, hopen⟩ := boundary_cond_on_axis_aligned hcond
        exact haxis li hlim hax hopen
  · obtain ⟨li, hmem, ⟨hdx, hdy⟩, t, ht0, ht1, hpx, hpy⟩ := hdiag
    refine ⟨li, hmem, ?_⟩
    have hne : li.start ≠ li.stop := fun h => hdx (by rw [h])
    have hq : 0 < (li.stop.x - li.start.x) ^ 2 + (li.stop.y - li.start.y) ^ 2 :=
      sq_sum_pos_of_ne hne
    unfold line_segment_distance
    rw [if_neg hne]
    have hrval : ((p.x - li.start.x) * (li.stop.x - li.start.x) +
        (p.y - li.start.y) * (li.stop.y - li.start.y)) /
        ((li.stop.x - li.start.x) ^ 2 + (li.stop.y - li.start.y) ^ 2) = t := by
      rw [hpx, hpy, div_eq_iff (ne_of_gt hq)]
      ring
    rw [if_neg (by rw [hrval]; linarith), if_neg (by rw [hrval]; linarith)]
    have hzero : (li.start.y - p.y) * (li.stop.x - li.start.x) -
        (li.start.x - p.x) * (li.stop.y - li.start.y) = 0 := by
      rw [hpx, hpy]
      ring
    rw [hzero]
    simp

/-- Claim C6 witness: the point (1,1) lies at parameter 1/2 inside the
diagonal segment of [(0,0),(2,2)], is no vertex, and the linestring has no
axis-aligned segment; it is not contained yet a segment is at distance 0. -/
theorem diagonal_interior_point_not_contained_witness :
    ¬ line_string_contains_point [⟨0, 0⟩, ⟨2, 2⟩] ⟨1, 1⟩ ∧
    ∃ li ∈ lines ([⟨0, 0⟩, ⟨2, 2⟩] : List Coord),
      line_segment_distance ⟨1, 1⟩ li.start li.stop = 0 := by
  apply diagonal_interior_point_not_contained
  · simp
  · exact ⟨⟨⟨0, 0⟩, ⟨2, 2⟩⟩, by simp [lines], ⟨by norm_num, by norm_num⟩,
      1 / 2, by norm_num, by norm_num, by norm_num, by norm_num⟩
  · norm_num [Coord.mk.injEq]
  · intro li hmem hax
    rw [show lines ([⟨0, 0⟩, ⟨2, 2⟩] : List Coord) = [⟨⟨0, 0⟩, ⟨2, 2⟩⟩] from rfl,
      List.mem_singleton] at hmem
    subst hmem
    rcases hax with h | h <;> norm_num at h

/-- Claim C6 counterexample to the original universal statement: in the
linestring [(0,0),(2,2),(3,1),(0,1)] the point (1,1) is strictly interior
to the diagonal segment (0,0)–(2,2) and is no vertex, yet
`line_string_contains_point` holds, because (1,1) also lies on the
horizontal segment (3,1)–(0,1). -/
theorem diagonal_interior_point_counterexample :
    2 ≤ ([⟨0, 0⟩, ⟨2, 2⟩, ⟨3, 1⟩, ⟨0, 1⟩] : List Coord).length ∧
    (∃ li ∈ lines ([⟨0, 0⟩, ⟨2, 2⟩, ⟨3, 1⟩, ⟨0, 1⟩] : List Coord),
      (li.start.x ≠ li.stop.x ∧ li.start.y ≠ li.stop.y) ∧ on_open_segment ⟨1, 1⟩ li) ∧
    (⟨1, 1⟩ : Coord) ∉ ([⟨0, 0⟩, ⟨2, 2⟩, ⟨3, 1⟩, ⟨0, 1⟩] : List Coord) ∧
    line_string_contains_point [⟨0, 0⟩, ⟨2, 2⟩, ⟨3, 1⟩, ⟨0, 1⟩] ⟨1, 1⟩ := by
  refine ⟨by simp, ?_, ?_, ?_⟩
  · exact ⟨⟨⟨0, 0⟩, ⟨2, 2⟩⟩, by simp [lines], ⟨by norm_num, by norm_num⟩,
      1 / 2, by norm_num, by norm_num, by norm_num, by norm_num⟩
  · norm_num [Coord.mk.injEq]
  · show (⟨1, 1⟩ : Coord) ∈ ([⟨0, 0⟩, ⟨2, 2⟩, ⟨3, 1⟩, ⟨0, 1⟩] : List Coord) ∨
      ∃ li ∈ lines ([⟨0, 0⟩, ⟨2, 2⟩, ⟨3, 1⟩, ⟨0, 1⟩] : List Coord),
        segment_boundary_cond li ⟨1, 1⟩
    refine Or.inr ⟨⟨⟨3, 1⟩, ⟨0, 1⟩⟩, ?_, Or.inl ⟨rfl, rfl, by norm_num, by norm_num⟩⟩
    rw [show lines ([⟨0, 0⟩, ⟨2, 2⟩, ⟨3, 1⟩, ⟨0, 1⟩] : List Coord) =
      [⟨⟨0, 0⟩, ⟨2, 2⟩⟩, ⟨⟨2, 2⟩, ⟨3, 1⟩⟩, ⟨⟨3, 1⟩, ⟨0, 1⟩⟩] from rfl]
    simp

/-- A coordinate of the area engine, over the exact numeric model ℚ. -/
structure CoordQ where
  x : ℚ
  y : ℚ
deriving DecidableEq

/-- A line of the area engine. -/
structure LineQ where
  start : CoordQ
  stop : CoordQ
deriving DecidableEq

/-- A polygon: one exterior ring plus interior rings (holes), in order. -/
structure PolygonQ where
  exterior : List CoordQ
  interiors : List (List CoordQ)
deriving DecidableEq

/-- An axis-aligned rectangle given by its min and max corners. -/
structure RectQ where
  rmin : CoordQ
  rmax : CoordQ
deriving DecidableEq

/-- A triangle: exactly three coordinates, ordered. -/
structure TriangleQ where
  v0 : CoordQ
  v1 : CoordQ
  v2 : CoordQ
deriving DecidableEq

/-- `GeometryCow`: the closed tagged union of shape kinds the `Area` trait
dispatches on. -/
inductive Geometry where
  | point : CoordQ → Geometry
  | line : LineQ → Geometry
  | lineString : List CoordQ → Geometry
  | polygon : PolygonQ → Geometry
  | multiPoint : List CoordQ → Geometry
  | multiLineString : List (List CoordQ) → Geometry
  | multiPolygon : List PolygonQ → Geometry
  | geometryCollection : List Geometry → Geometry
  | rect : RectQ → Geometry
  | triangle : TriangleQ → Geometry

/-- Modelled from the spec: `twice_signed_ring_area` (from
`crate::algorithm::winding_order`, whose source is not among the files at
hand) is the sum over consecutive coordinate pairs of
`x_i * y_(i+1) - x_(i+1) * y_i`. -/
def twice_signed_ring_area : List CoordQ → ℚ
  | a :: b :: rest => (a.x * b.y - b.x * a.y) + twice_signed_ring_area (b :: rest)
  | _ => 0

/-- `get_linestring_area`: `twice_signed_ring_area(linestring) / (T::one() + T::one())`. -/
def get_linestring_area (linestring : List CoordQ) : ℚ :=
  twice_signed_ring_area linestring / (1 + 1)

/-- `area_polygon`: fold over the interior rings, starting from the
exterior ring's area and subtracting each interior ring's area. -/
def area_polygon (polygon : PolygonQ) : ℚ :=
  polygon.interiors.foldl (fun total next => total - get_linestring_area next)
    (get_linestring_area polygon.exterior)

/-- `area_multi_polygon`: sum of the member polygon areas, in order (each
member dispatches back through `area` as a polygon). -/
def area_multi_polygon (multi_polygon : List PolygonQ) : ℚ :=
  multi_polygon.foldl (fun total next => total + area_polygon next) 0

/-- Modelled from the spec: `Rect::width` is `max.x - min.x`. -/
def rect_width (r : RectQ) : ℚ := r.rmax.x - r.rmin.x

/-- Modelled from the spec: `Rect::height` is `max.y - min.y`. -/
def rect_height (r : RectQ) : ℚ := r.rmax.y - r.rmin.y

/-- `area_rect`: `rect.width() * rect.height()`. -/
def area_rect (r : RectQ) : ℚ := rect_width r * rect_height r

/-- Modelled from the spec: `Line::determinant` is the edge's 2×2
determinant `x_i * y_(i+1) - x_(i+1) * y_i`. -/
def line_determinant (l : LineQ) : ℚ := l.start.x * l.stop.y - l.stop.x * l.start.y

/-- Modelled from the spec: `Triangle::to_lines` yields the three implied
edges, in vertex order. -/
def triangle_to_lines (t : TriangleQ) : List LineQ :=
  [⟨t.v0, t.v1⟩, ⟨t.v1, t.v2⟩, ⟨t.v2, t.v0⟩]

/-- `area_triangle`: fold of the edge determinants over `to_lines`,
divided by `T::one() + T::one()`. -/
def area_triangle (t : TriangleQ) : ℚ :=
  ((triangle_to_lines t).foldl (fun total line => total + line_determinant line) 0) / (1 + 1)

mutual

/-- `Area::area`: the dispatcher of `geo/src/algorithm/area.rs`, matching
on the `GeometryCow` variant. -/
def area : Geometry → ℚ
  | .point _ => 0
  | .line _ => 0
  | .lineString _ => 0
  | .polygon g => area_polygon g
  | .multiPoint _ => 0
  | .multiLineString _ => 0
  | .multiPolygon g => area_multi_polygon g
  | .geometryCollection g => area_collection_fold 0 g
  | .rect g => area_rect g
  | .triangle g => area_triangle g

/-- The fold of `area_geometry_collection`: `total + geometry.area()` over
the members, in order. -/
def area_collection_fold : ℚ → List Geometry → ℚ
  | total, [] => total
  | total, g :: rest => area_collection_fold (total + area g) rest

end

/-- A call of `fn area(&'a self) -> T` made explicit: it yields the result
together with the (unchanged, immutably borrowed) receiver. -/
def area_call (g : Geometry) : ℚ × Geometry := (area g, g)

lemma foldl_sub_eq {α : Type} (g : α → ℚ) : ∀ (l : List α) (a : ℚ),
    l.foldl (fun total next => total - g next) a = a - (l.map g).sum := by
  intro l
  induction l with
  | nil =>
    intro a
    simp
  | cons x xs ih =>
    intro a
    rw [List.foldl_cons, ih, List.map_cons, List.sum_cons]
    ring

/-- Claim C7: polygon area is the shoelace formula — half the exterior
ring's twice-signed area minus half of each interior ring's, in order —
and gives 100 for the 10×10 square at the origin, 98 with two 1×1 holes. -/
theorem area_polygon_shoelace :
    (∀ poly : PolygonQ, area (Geometry.polygon poly) =
      twice_signed_ring_area poly.exterior / 2 -
        (poly.interiors.map (fun ring => twice_signed_ring_area ring / 2)).sum) ∧
    area (Geometry.polygon ⟨[⟨0, 0⟩, ⟨10, 0⟩, ⟨10, 10⟩, ⟨0, 10⟩, ⟨0, 0⟩], []⟩) = 100 ∧
    area (Geometry.polygon ⟨[⟨0, 0⟩, ⟨10, 0⟩, ⟨10, 10⟩, ⟨0, 10⟩, ⟨0, 0⟩],
      [[⟨1, 1⟩, ⟨2, 1⟩, ⟨2, 2⟩, ⟨1, 2⟩, ⟨1, 1⟩],
       [⟨5, 5⟩, ⟨6, 5⟩, ⟨6, 6⟩, ⟨5, 6⟩, ⟨5, 5⟩]]⟩) = 98 := by
  refine ⟨?_, ?_, ?_⟩
  · intro poly
    have h : area (Geometry.polygon poly) = area_polygon poly := by simp [area]
    rw [h]
    unfold area_polygon
    rw [foldl_sub_eq]
    unfold get_linestring_area
    norm_num
  · simp only [area]
    norm_num [area_polygon, get_linestring_area, twice_signed_ring_area]
  · simp only [area]
    norm_num [area_polygon, get_linestring_area, twice_signed_ring_area]

lemma tsra_concat (xs : List CoordQ) (a : CoordQ) :
    twice_signed_ring_area (xs ++ [a]) =
      twice_signed_ring_area xs +
        (xs.getLast?.elim 0 fun y => y.x * a.y - a.x * y.y) := by
  induction xs with
  | nil => simp [twice_signed_ring_area]
  | cons x xs ih =>
    cases xs with
    | nil => simp [twice_signed_ring_area]
    | cons y ys =>
      have h1 : twice_signed_ring_area ((x :: y :: ys) ++ [a]) =
          (x.x * y.y - y.x * x.y) + twice_signed_ring_area ((y :: ys) ++ [a]) := rfl
      have h2 : twice_signed_ring_area (x :: y :: ys) =
          (x.x * y.y - y.x * x.y) + twice_signed_ring_area (y :: ys) := rfl
      rw [h1, ih, h2, List.getLast?_cons_cons]
      ring

lemma tsra_reverse (l : List CoordQ) :
    twice_signed_ring_area l.reverse = - twice_signed_ring_area l := by
  induction l with
  | nil => simp [twice_signed_ring_area]
  | cons a l ih =>
    rw [List.reverse_cons, tsra_concat, ih]
    cases l with
    | nil => simp [twice_signed_ring_area]
    | cons b rest =>
      rw [List.getLast?_reverse, List.head?_cons]
      have h : twice_signed_ring_area (a :: b :: rest) =
          (a.x * b.y - b.x * a.y) + twice_signed_ring_area (b :: rest) := rfl
      rw [h]
      simp only [Option.elim]
      ring

/-- Claim C8: reversing the vertex order of a closed exterior ring negates
its signed area. -/
theorem reverse_ring_negates_area (P : List CoordQ) (hclosed : P.head? = P.getLast?) :
    get_linestring_area P.reverse = - get_linestring_area P := by
  unfold get_linestring_area
  rw [tsra_reverse]
  ring

/-- Claim C8 witness: the closed unit square, reversed, has area -1/2·2. -/
theorem reverse_ring_negates_area_witness :
    ([⟨0, 0⟩, ⟨1, 0⟩, ⟨1, 1⟩, ⟨0, 1⟩, ⟨0, 0⟩] : List CoordQ).head? =
      ([⟨0, 0⟩, ⟨1, 0⟩, ⟨1, 1⟩, ⟨0, 1⟩, ⟨0, 0⟩] : List CoordQ).getLast? ∧
    get_linestring_area ([⟨0, 0⟩, ⟨1, 0⟩, ⟨1, 1⟩, ⟨0, 1⟩, ⟨0, 0⟩] : List CoordQ).reverse =
      - get_linestring_area ([⟨0, 0⟩, ⟨1, 0⟩, ⟨1, 1⟩, ⟨0, 1⟩, ⟨0, 0⟩] : List CoordQ) := by
  have h : ([⟨0, 0⟩, ⟨1, 0⟩, ⟨1, 1⟩, ⟨0, 1⟩, ⟨0, 0⟩] : List CoordQ).head? =
      ([⟨0, 0⟩, ⟨1, 0⟩, ⟨1, 1⟩, ⟨0, 1⟩, ⟨0, 0⟩] : List CoordQ).getLast? := by decide
  exact ⟨h, reverse_ring_negates_area _ h⟩

/-- Claim C9: triangle area is the sum of the three edge determinants over
its implied edges, halved, with sign following vertex order:
(0,0),(1,0),(0,1) gives 1/2 and (0,0),(0,1),(1,0) gives -1/2. -/
theorem area_triangle_determinant :
    (∀ t : TriangleQ, area (Geometry.triangle t) =
      ((t.v0.x * t.v1.y - t.v1.x * t.v0.y) + (t.v1.x * t.v2.y - t.v2.x * t.v1.y) +
        (t.v2.x * t.v0.y - t.v0.x * t.v2.y)) / 2) ∧
    area (Geometry.triangle ⟨⟨0, 0⟩, ⟨1, 0⟩, ⟨0, 1⟩⟩) = 1 / 2 ∧
    area (Geometry.triangle ⟨⟨0, 0⟩, ⟨0, 1⟩, ⟨1, 0⟩⟩) = -(1 / 2) := by
  refine ⟨?_, ?_, ?_⟩
  · intro t
    have h : area (Geometry.triangle t) = area_triangle t := by simp [area]
    rw [h]
    unfold area_triangle triangle_to_lines line_determinant
    simp only [List.foldl_cons, List.foldl_nil]
    ring
  · simp only [area]
    norm_num [area_triangle, triangle_to_lines, line_determinant]
  · simp only [area]
    norm_num [area_triangle, triangle_to_lines, line_determinant]

/-- Claim C10: `area` is deterministic and mutation-free: an explicit call
returns its receiver unchanged, and a second call on the returned receiver
yields the identical result. -/
theorem area_deterministic_and_pure (g : Geometry) :
    (area_call g).1 = (area_call (area_call g).2).1 ∧ (area_call (area_call g).2).2 = g :=
  ⟨rfl, rfl⟩

end Geo
